import Mathlib

/-!
Verification of the aws-groups-sync directory synchronization engine.

The Python modules `src/utils.py` (retry decorator), `src/google_directory.py`
(paginated snapshot reads, group creation, member addition) and
`src/sync_service.py` (the union-update merge engine) are shallowly embedded
below.  Remote HTTP behaviour is modelled by explicit oracles; HttpError
values are modelled by their integer status codes.
-/

/-- Model of Python `str.lower` on a single (ASCII) character. -/
def lowerChar (c : Char) : Char :=
  if 65 ≤ c.toNat ∧ c.toNat ≤ 90 then Char.ofNat (c.toNat + 32) else c

/-- Model of Python `str.lower` (ASCII case folding). -/
def pyLower (s : String) : String := ⟨s.data.map lowerChar⟩

/-- Model of Python `str.strip`: drop leading and trailing whitespace. -/
def pyStrip (s : String) : String :=
  ⟨((s.data.dropWhile Char.isWhitespace).reverse.dropWhile Char.isWhitespace).reverse⟩

/-- Model of the Python substring test `"@" in s` for a single character. -/
def pyContains (s : String) (c : Char) : Bool := s.data.contains c

/-- `src/sync_service.py`, `to_group_email`: strip the key; if it contains
an `@` return it lower-cased, otherwise append `@{group_domain}` and
lower-case the whole string. -/
def to_group_email (group_key group_domain : String) : String :=
  let k := pyStrip group_key
  if pyContains k '@' then pyLower k
  else pyLower (pyLower k ++ "@" ++ group_domain)

/-- `src/sync_service.py` line 57: the set comprehension
`{m.strip().lower() for m in ad_members if m and "@" in m}` — keep entries
that are non-empty and contain `@`, then strip and lower-case them. -/
def normMembers (ms : List String) : Finset String :=
  ((ms.filter (fun m => m ≠ "" && pyContains m '@')).map
    (fun m => pyLower (pyStrip m))).toFinset

/-- First-match lookup in an association list, the semantics of a Python
dict read (dict keys are unique, so first-match is exact). -/
def lookupA {α : Type} : List (String × α) → String → Option α
  | [], _ => none
  | p :: ps, e => if p.1 = e then some p.2 else lookupA ps e

/-- Target-directory state / snapshot: group email to member set. -/
def SnapL : Type := List (String × Finset String)

/-- Python dict assignment `d[e] = s`: replace in place if present,
append otherwise (insertion order preserved). -/
def upsert (acc : List (String × Finset String)) (e : String) (s : Finset String) :
    List (String × Finset String) :=
  if (lookupA acc e).isSome then acc.map (fun p => if p.1 = e then (p.1, s) else p)
  else acc ++ [(e, s)]

/-- Effect of a successful `createGroup` on the real target state: the group
now exists (with no members when it was previously absent). -/
def createState (st : List (String × Finset String)) (e : String) :
    List (String × Finset String) :=
  if (lookupA st e).isSome then st else st ++ [(e, ∅)]

/-- Add a set of members to the entry of group `e` (set union: re-adding an
existing member is the 409-absorbed no-op of `add_member`). -/
def updateSt (st : List (String × Finset String)) (e : String) (s : Finset String) :
    List (String × Finset String) :=
  st.map (fun p => if p.1 = e then (p.1, p.2 ∪ s) else p)

/-- Remote write calls issued by the merge engine (`union_update_group_members`
only ever calls `create_group` and `add_member` via `add_members_bulk`;
the code contains no member-removal or group-deletion call). -/
inductive Call : Type
  | create (email : String) (displayName : String)
  | addM (email : String) (member : String)
deriving DecidableEq

/-- Failure oracle for the Google Directory write operations: whether a
`create_group` call for a given email succeeds, and whether an `add_member`
call succeeds (a `False` add is a non-409 HttpError, absorbed by
`add_members_bulk`; a 409 "already a member" is a success in the code and is
modelled by the union in `updateSt`). -/
structure GD : Type where
  createOk : String → Bool
  addOk : String → String → Bool

/-- The all-writes-succeed oracle. -/
def allOk : GD := ⟨fun _ => true, fun _ _ => true⟩

/-- `add_members_bulk` applied to members `s` of group `e`: only the members
whose individual `add_member` succeeds end up in the group. -/
def addSt (gd : GD) (st : List (String × Finset String)) (e : String)
    (s : Finset String) : List (String × Finset String) :=
  updateSt st e (s.filter (fun m => gd.addOk e m = true))

/-- The `add_member` calls issued by one `add_members_bulk` invocation
(Python set iteration order is arbitrary; the model fixes the sorted order). -/
def addCalls (e : String) (s : Finset String) : List Call :=
  (s.sort (· ≤ ·)).map (Call.addM e)

/-- Outcome of one merge-engine run: the remote write calls issued, the
resulting real target state, and — when `create_group` raised — the source
group key at which the run aborted (the exception propagates out of
`union_update_group_members`, line 61 has no try/except). -/
structure RunResult : Type where
  calls : List Call
  state : List (String × Finset String)
  aborted : Option String
deriving DecidableEq

/-- `src/sync_service.py`, `union_update_group_members` lines 55-89: for each
source group, map the key to a group email; if the email is absent from the
fetched snapshot, create the group (a failure aborts the whole run) and bulk
add the normalized members when non-empty; otherwise add
`(current ∪ desired) - current` when non-empty.  Decisions are made against
the snapshot fetched once at the start (`google_groups` is never updated in
the loop), while `st` tracks the evolving real remote state. -/
def runGroups (gd : GD) (dom : String) (snap : List (String × Finset String)) :
    List (String × List String) → List (String × Finset String) → List Call → RunResult
  | [], st, calls => ⟨calls, st, none⟩
  | (k, ms) :: rest, st, calls =>
    let e := to_group_email k dom
    let norm := normMembers ms
    match lookupA snap e with
    | none =>
      if gd.createOk e then
        if norm = ∅ then
          runGroups gd dom snap rest (createState st e) (calls ++ [Call.create e k])
        else
          runGroups gd dom snap rest (addSt gd (createState st e) e norm)
            ((calls ++ [Call.create e k]) ++ addCalls e norm)
      else ⟨calls ++ [Call.create e k], st, some k⟩
    | some current =>
      let missing := (current ∪ norm) \ current
      if missing = ∅ then runGroups gd dom snap rest st calls
      else runGroups gd dom snap rest (addSt gd st e missing) (calls ++ addCalls e missing)

/-- A full merge run: the engine fetches the snapshot and starts from the
matching real state. -/
def runMerge (gd : GD) (dom : String) (src : List (String × List String))
    (snap : List (String × Finset String)) : RunResult :=
  runGroups gd dom snap src snap []

/-- The Python method `union_update_group_members` returns `None`. -/
def union_update_return (_gd : GD) (_dom : String)
    (_src : List (String × List String)) (_snap : List (String × Finset String)) :
    PUnit := PUnit.unit

/-!  The retry decorator of `src/utils.py`.  One attempt of the wrapped
operation either returns a value, raises an exception matched by the
`exceptions` tuple, or raises an unmatched exception (exceptions are
modelled by `Nat` identifiers). -/

/-- Result of one invocation of the wrapped zero-argument operation. -/
inductive OpRes (α : Type) : Type
  | ok (v : α)
  | errMatch (e : Nat)
  | errOther (e : Nat)

/-- Observable trace of one `retry`-wrapped call: the final outcome (a value,
or a raised exception tagged with whether it was a matching one), the number
of invocations of the operation, and the sequence of sleep durations (in
seconds, as exact rationals standing in for the Python floats). -/
structure RetryTrace (α : Type) : Type where
  result : Except (Bool × Nat) α
  invocations : Nat
  sleeps : List ℚ

/-- The `while True` loop of `retry` in `src/utils.py` lines 59-70.
`rem` is `tries - attempt`: a matching failure with `rem ≤ 1` corresponds to
`attempt >= tries` after the increment, and re-raises; otherwise the loop
sleeps `min(delay, max_delay)`, multiplies `delay` by `backoff` and retries.
`idx` is the 0-based index of the current invocation. -/
def retryGo {α : Type} (op : Nat → OpRes α) (backoff maxDelay : ℚ) :
    Nat → Nat → ℚ → List ℚ → RetryTrace α
  | 0, idx, _, sleeps =>
    match op idx with
    | .ok v => ⟨.ok v, idx + 1, sleeps⟩
    | .errOther e => ⟨.error (false, e), idx + 1, sleeps⟩
    | .errMatch e => ⟨.error (true, e), idx + 1, sleeps⟩
  | rem + 1, idx, delay, sleeps =>
    match op idx with
    | .ok v => ⟨.ok v, idx + 1, sleeps⟩
    | .errOther e => ⟨.error (false, e), idx + 1, sleeps⟩
    | .errMatch e =>
      if rem = 0 then ⟨.error (true, e), idx + 1, sleeps⟩
      else retryGo op backoff maxDelay rem (idx + 1) (delay * backoff)
        (sleeps ++ [min delay maxDelay])

/-- A `retry(exceptions, tries, base_delay, backoff, max_delay)`-wrapped call
of the operation `op`. -/
def retryRun {α : Type} (tries : Nat) (baseDelay backoff maxDelay : ℚ)
    (op : Nat → OpRes α) : RetryTrace α :=
  retryGo op backoff maxDelay tries 0 baseDelay []

/-- Default parameters used by every decorator in `src/google_directory.py`:
`@retry((HttpError,), tries=5)` with `base_delay=0.5`, `backoff=2.0`,
`max_delay=8.0`; every `HttpError` is a matching exception. -/
def retryDefault {α : Type} (op : Nat → OpRes α) : RetryTrace α :=
  retryRun 5 (1/2) 2 8 op

/-!  The Group Provisioning Client of `src/google_directory.py`.
A remote API attempt either succeeds or raises an `HttpError` with a
status code. -/

/-- Result of one remote `execute()` attempt. -/
inductive ApiRes (α : Type) : Type
  | ok (v : α)
  | httpErr (status : Nat)

/-- A created-group record (opaque payload). -/
structure GroupRecord : Type where
  email : String
deriving DecidableEq

/-- `create_group` (lines 144-157): the body just executes the insert call
and returns its result; every `HttpError` — including a 409 "already
exists" conflict — escapes the body and is handled only by the `@retry`
decorator (as a matching exception). -/
def create_group (attempts : Nat → ApiRes GroupRecord) : RetryTrace GroupRecord :=
  retryDefault (fun k =>
    match attempts k with
    | .ok v => .ok v
    | .httpErr s => .errMatch s)

/-- The body of `add_member` (lines 159-171): a 409 "already a member"
conflict is caught and turned into the no-op marker `None`; any other
`HttpError` is re-raised (and is then a matching exception for `@retry`). -/
def add_member_body {α : Type} (r : ApiRes α) : OpRes (Option α) :=
  match r with
  | .ok v => .ok (some v)
  | .httpErr s => if s = 409 then .ok none else .errMatch s

/-- `add_member`: the `@retry`-wrapped body. -/
def add_member {α : Type} (attempts : Nat → ApiRes α) : RetryTrace (Option α) :=
  retryDefault (fun k => add_member_body (attempts k))

/-- Observable trace of `add_members_bulk` (lines 173-179): which members
were attempted, in order, and the per-member failures that were caught and
logged.  The function itself always returns normally. -/
structure BulkTrace : Type where
  attempted : List String
  loggedErrors : List (String × Nat)
deriving DecidableEq

/-- `add_members_bulk`: for each member in turn, call `add_member`; an
`HttpError` escaping one call is logged and the loop continues (`res m`
gives the outcome of the wrapped `add_member` call for member `m`). -/
def add_members_bulk (res : String → Except Nat (Option PUnit)) :
    List String → BulkTrace
  | [] => ⟨[], []⟩
  | m :: rest =>
    let t := add_members_bulk res rest
    match res m with
    | .ok _ => ⟨m :: t.attempted, t.loggedErrors⟩
    | .error c => ⟨m :: t.attempted, (m, c) :: t.loggedErrors⟩

/-!  The Paginated Directory Client: `get_all_groups_with_members`
(`src/google_directory.py` lines 77-140).  Group pages are modelled as a
finite list of pages of group objects (the continuation-token walk visits
them in order); the member listing for each group email is modelled as a
finite sequence of successful pages followed by a terminal event. -/

/-- A group resource as returned by the groups-list call: the dictionary may
lack the `name` or `email` field. -/
structure GroupObj : Type where
  gName : Option String
  email : Option String

/-- A member resource: the dictionary may lack the `email` field. -/
structure MemberObj : Type where
  email : Option String

/-- How the member-page walk for one group ends: a final page carrying no
continuation token, an `HttpError` with status 404, or an `HttpError` with
another status. -/
inductive MTail : Type
  | lastPage (members : List MemberObj)
  | notFound
  | failCode (code : Nat)

/-- Remote member-listing behaviour for one group: `pages` are the
successful pages each carrying a continuation token, then `tail` happens. -/
structure MBehavior : Type where
  pages : List (List MemberObj)
  tail : MTail

/-- Lines 120-124: member emails kept from one page — present, non-empty,
lower-cased. -/
def memberEmails (l : List MemberObj) : List String :=
  ((l.filterMap (fun m => m.email)).filter (fun e => e ≠ "")).map pyLower

/-- The inner `while True` member loop (lines 114-133) over the remaining
pages: accumulate each page's emails; a 404 breaks out keeping the members
accumulated so far; any other `HttpError` propagates. -/
def collectLoop (tail : MTail) : List (List MemberObj) → Finset String →
    Except Nat (Finset String)
  | [], acc =>
    match tail with
    | .lastPage l => .ok (acc ∪ (memberEmails l).toFinset)
    | .notFound => .ok acc
    | .failCode c => .error c
  | p :: ps, acc => collectLoop tail ps (acc ∪ (memberEmails p).toFinset)

/-- The full member collection for one group. -/
def collectMembers (b : MBehavior) : Except Nat (Finset String) :=
  collectLoop b.tail b.pages ∅

/-- Union of the member emails of a list of pages. -/
def unionPages (ps : List (List MemberObj)) : Finset String :=
  ps.foldl (fun acc p => acc ∪ (memberEmails p).toFinset) ∅

/-- Lines 105-107: the group passes the name filter when no filter is
configured (`None` or `""` are falsy) or its display name (defaulted to
`""`) starts with the filter string. -/
def groupPass (pfx : Option String) (g : GroupObj) : Bool :=
  match pfx with
  | none => true
  | some p => if p = "" then true else (p.data.isPrefixOf (g.gName.getD "").data)

/-- Line 108-110: the group is registered only when its `email` field is
present and non-empty. -/
def emailOk (g : GroupObj) : Bool :=
  match g.email with
  | none => false
  | some e => e ≠ ""

/-- The `for g in resp.get("groups", [])` body (lines 104-133): filter by
name, skip email-less groups, register the group and collect its members;
a member-listing failure that is not a 404 propagates out of the whole
snapshot operation. -/
def processGroups (mb : String → MBehavior) (pfx : Option String) :
    List GroupObj → List (String × Finset String) →
    Except Nat (List (String × Finset String))
  | [], acc => .ok acc
  | g :: gs, acc =>
    if groupPass pfx g then
      match g.email with
      | none => processGroups mb pfx gs acc
      | some e =>
        if e = "" then processGroups mb pfx gs acc
        else
          match collectMembers (mb e) with
          | .error c => .error c
          | .ok s => processGroups mb pfx gs (upsert acc e s)
    else processGroups mb pfx gs acc

/-- The outer pagination loop over group pages (lines 95-137). -/
def getAllPages (mb : String → MBehavior) (pfx : Option String) :
    List (List GroupObj) → List (String × Finset String) →
    Except Nat (List (String × Finset String))
  | [], acc => .ok acc
  | pg :: pgs, acc =>
    match processGroups mb pfx pg acc with
    | .error c => .error c
    | .ok acc2 => getAllPages mb pfx pgs acc2

/-- `get_all_groups_with_members`: drain all group pages, with the member
behaviour oracle `mb`. -/
def get_all_groups_with_members (pfx : Option String)
    (gpages : List (List GroupObj)) (mb : String → MBehavior) :
    Except Nat (List (String × Finset String)) :=
  getAllPages mb pfx gpages []

/-- A group email is registered by the snapshot walk when some group object
on some page passes the name filter and carries that non-empty email. -/
def Registered (pfx : Option String) (gpages : List (List GroupObj))
    (e : String) : Prop :=
  ∃ g ∈ gpages.flatten, groupPass pfx g = true ∧ g.email = some e ∧ e ≠ ""

/-- The real target state dominates the fetched snapshot pointwise. -/
def SnapLE (snap st : List (String × Finset String)) : Prop :=
  ∀ e c, lookupA snap e = some c → ∃ S, lookupA st e = some S ∧ c ⊆ S

/-- Registration restricted to one list of group objects. -/
def RegL (pfx : Option String) (gs : List GroupObj) (e : String) : Prop :=
  ∃ g ∈ gs, groupPass pfx g = true ∧ g.email = some e ∧ e ≠ ""

instance {ε α : Type} [DecidableEq ε] [DecidableEq α] : DecidableEq (Except ε α) := fun x y =>
  match x, y with
  | .ok a, .ok b =>
    if h : a = b then .isTrue (by rw [h]) else .isFalse (fun hc => h (Except.ok.inj hc))
  | .error a, .error b =>
    if h : a = b then .isTrue (by rw [h]) else .isFalse (fun hc => h (Except.error.inj hc))
  | .ok _, .error _ => .isFalse (fun hc => Except.noConfusion hc)
  | .error _, .ok _ => .isFalse (fun hc => Except.noConfusion hc)

instance {α : Type} [DecidableEq α] : DecidableEq (RetryTrace α) := fun x y =>
  if h : x.result = y.result ∧ x.invocations = y.invocations ∧ x.sleeps = y.sleeps then
    .isTrue (by cases x; cases y; simp only at h; simp [h.1, h.2.1, h.2.2])
  else
    .isFalse (fun hc => h (by rw [hc]; exact ⟨rfl, rfl, rfl⟩))

/-- Oracle in which creating the group `a@x.com` fails and every other write
succeeds. -/
def gdFailA : GD := ⟨fun e => e ≠ "a@x.com", fun _ _ => true⟩

instance (pfx : Option String) (gpages : List (List GroupObj)) (e : String) :
    Decidable (Registered pfx gpages e) := by
  unfold Registered
  infer_instance

/-- All-matching-failures operation used by the C6 witness. -/
def opW : Nat → OpRes PUnit := fun j => .errMatch j

/-- Non-matching first failure operation used by the C6 witness. -/
def opW2 : Nat → OpRes PUnit := fun _ => .errOther 7

/-- Group object `g@x.com` used by the C7 and C10 witnesses. -/
def gW : GroupObj := ⟨some "G", some "g@x.com"⟩

/-- Group object `h@x.com` used by the C7 witness. -/
def gW2 : GroupObj := ⟨some "H", some "h@x.com"⟩

/-- Member behaviour: `g@x.com` has one member page then a 404; other groups
end with a normal last page. -/
def mbW : String → MBehavior := fun e =>
  if e = "g@x.com" then ⟨[[⟨some "A@x.com"⟩]], .notFound⟩
  else ⟨[], .lastPage [⟨some "b@x.com"⟩]⟩

/-- Member behaviour: listing members of `g@x.com` fails with status 500. -/
def mbW2 : String → MBehavior := fun e =>
  if e = "g@x.com" then ⟨[], .failCode 500⟩ else ⟨[], .lastPage []⟩

/-- Group object with no email field, used by the C10 witness. -/
def gNoEmail : GroupObj := ⟨some "X", none⟩

theorem lowerChar_fixed (m : Nat) (h1 : 97 ≤ m) (h2 : m ≤ 122) :
    lowerChar (Char.ofNat m) = Char.ofNat m := by
  interval_cases m <;> decide

theorem lowerChar_idem (c : Char) : lowerChar (lowerChar c) = lowerChar c := by
  by_cases h : 65 ≤ c.toNat ∧ c.toNat ≤ 90
  · have hc : lowerChar c = Char.ofNat (c.toNat + 32) := by
      rw [lowerChar, if_pos h]
    rw [hc]
    exact lowerChar_fixed (c.toNat + 32) (by omega) (by omega)
  · have hc : lowerChar c = c := by
      rw [lowerChar, if_neg h]
    rw [hc, hc]

theorem pyLower_idem (s : String) : pyLower (pyLower s) = pyLower s := by
  simp [pyLower, List.map_map, Function.comp_def, lowerChar_idem]

theorem pyLower_append (s t : String) :
    pyLower (s ++ t) = pyLower s ++ pyLower t := by
  apply String.ext
  simp [pyLower, String.data_append]

theorem lookupA_append {α : Type} (l1 l2 : List (String × α)) (x : String) :
    lookupA (l1 ++ l2) x =
      match lookupA l1 x with
      | some v => some v
      | none => lookupA l2 x := by
  induction l1 with
  | nil => simp [lookupA]
  | cons p ps ih =>
    simp only [List.cons_append, lookupA]
    split_ifs with h
    · rfl
    · exact ih

theorem lookupA_updateSt (st : List (String × Finset String)) (e x : String)
    (s : Finset String) :
    lookupA (updateSt st e s) x =
      if x = e then (lookupA st x).map (fun c => c ∪ s) else lookupA st x := by
  induction st with
  | nil => simp [updateSt, lookupA]
  | cons p ps ih =>
    simp only [updateSt, List.map_cons] at ih ⊢
    by_cases hpe : p.1 = e
    · rw [if_pos hpe]
      by_cases hpx : p.1 = x
      · have hxe : x = e := hpx ▸ hpe
        simp only [lookupA, hpx, if_pos rfl, if_pos hxe]
        simp
      · have hne : ¬ ((p.1, p.2 ∪ s).1 = x) := hpx
        simp only [lookupA, if_neg hpx, if_neg hne]
        exact ih
    · rw [if_neg hpe]
      by_cases hpx : p.1 = x
      · have hxe : ¬ (x = e) := fun h => hpe (hpx.trans h)
        simp only [lookupA, if_pos hpx, if_neg hxe]
      · simp only [lookupA, if_neg hpx]
        exact ih

theorem lookupA_mapReplace (acc : List (String × Finset String)) (e x : String)
    (s : Finset String) :
    lookupA (acc.map (fun p => if p.1 = e then (p.1, s) else p)) x =
      if x = e then (lookupA acc x).map (fun _ => s) else lookupA acc x := by
  induction acc with
  | nil => simp [lookupA]
  | cons p ps ih =>
    simp only [List.map_cons] at ih ⊢
    by_cases hpe : p.1 = e
    · rw [if_pos hpe]
      by_cases hpx : p.1 = x
      · have hxe : x = e := hpx ▸ hpe
        simp only [lookupA, hpx, if_pos rfl, if_pos hxe]
        simp
      · have hne : ¬ ((p.1, s).1 = x) := hpx
        simp only [lookupA, if_neg hpx, if_neg hne]
        exact ih
    · rw [if_neg hpe]
      by_cases hpx : p.1 = x
      · have hxe : ¬ (x = e) := fun h => hpe (hpx.trans h)
        simp only [lookupA, if_pos hpx, if_neg hxe]
      · simp only [lookupA, if_neg hpx]
        exact ih

theorem lookupA_upsert (acc : List (String × Finset String)) (e x : String)
    (s : Finset String) :
    lookupA (upsert acc e s) x = if x = e then some s else lookupA acc x := by
  unfold upsert
  by_cases hs : (lookupA acc e).isSome
  · rw [if_pos hs, lookupA_mapReplace]
    by_cases hxe : x = e
    · subst hxe
      obtain ⟨v, hv⟩ := Option.isSome_iff_exists.mp hs
      simp [hv]
    · simp [hxe]
  · rw [if_neg hs, lookupA_append]
    by_cases hxe : x = e
    · subst hxe
      rw [Option.not_isSome_iff_eq_none] at hs
      simp [hs, lookupA]
    · cases h : lookupA acc x with
      | some v => simp [hxe]
      | none =>
        have : ¬ (e = x) := fun he => hxe he.symm
        simp [lookupA, this, hxe]

theorem runGroups_nil (gd : GD) (dom : String) (snap st : List (String × Finset String))
    (calls : List Call) : runGroups gd dom snap [] st calls = ⟨calls, st, none⟩ := rfl

theorem runGroups_absent_ok_empty (gd : GD) (dom : String)
    (snap : List (String × Finset String)) (k : String) (ms : List String)
    (rest : List (String × List String)) (st : List (String × Finset String))
    (calls : List Call)
    (hsnap : lookupA snap (to_group_email k dom) = none)
    (hc : gd.createOk (to_group_email k dom) = true)
    (hn : normMembers ms = ∅) :
    runGroups gd dom snap ((k, ms) :: rest) st calls =
      runGroups gd dom snap rest (createState st (to_group_email k dom))
        (calls ++ [Call.create (to_group_email k dom) k]) := by
  simp [runGroups, hsnap, hc, hn]

theorem runGroups_absent_ok_nonempty (gd : GD) (dom : String)
    (snap : List (String × Finset String)) (k : String) (ms : List String)
    (rest : List (String × List String)) (st : List (String × Finset String))
    (calls : List Call)
    (hsnap : lookupA snap (to_group_email k dom) = none)
    (hc : gd.createOk (to_group_email k dom) = true)
    (hn : ¬ normMembers ms = ∅) :
    runGroups gd dom snap ((k, ms) :: rest) st calls =
      runGroups gd dom snap rest
        (addSt gd (createState st (to_group_email k dom)) (to_group_email k dom)
          (normMembers ms))
        ((calls ++ [Call.create (to_group_email k dom) k]) ++
          addCalls (to_group_email k dom) (normMembers ms)) := by
  simp [runGroups, hsnap, hc, hn]

theorem runGroups_absent_fail (gd : GD) (dom : String)
    (snap : List (String × Finset String)) (k : String) (ms : List String)
    (rest : List (String × List String)) (st : List (String × Finset String))
    (calls : List Call)
    (hsnap : lookupA snap (to_group_email k dom) = none)
    (hc : gd.createOk (to_group_email k dom) = false) :
    runGroups gd dom snap ((k, ms) :: rest) st calls =
      ⟨calls ++ [Call.create (to_group_email k dom) k], st, some k⟩ := by
  simp [runGroups, hsnap, hc]

theorem runGroups_present_noop (gd : GD) (dom : String)
    (snap : List (String × Finset String)) (k : String) (ms : List String)
    (rest : List (String × List String)) (st : List (String × Finset String))
    (calls : List Call) (current : Finset String)
    (hsnap : lookupA snap (to_group_email k dom) = some current)
    (hm : (current ∪ normMembers ms) \ current = ∅) :
    runGroups gd dom snap ((k, ms) :: rest) st calls =
      runGroups gd dom snap rest st calls := by
  simp [runGroups, hsnap, hm]

theorem runGroups_present_add (gd : GD) (dom : String)
    (snap : List (String × Finset String)) (k : String) (ms : List String)
    (rest : List (String × List String)) (st : List (String × Finset String))
    (calls : List Call) (current : Finset String)
    (hsnap : lookupA snap (to_group_email k dom) = some current)
    (hm : ¬ (current ∪ normMembers ms) \ current = ∅) :
    runGroups gd dom snap ((k, ms) :: rest) st calls =
      runGroups gd dom snap rest
        (addSt gd st (to_group_email k dom) ((current ∪ normMembers ms) \ current))
        (calls ++ addCalls (to_group_email k dom) ((current ∪ normMembers ms) \ current)) := by
  simp [runGroups, hsnap, hm]

theorem lookupA_createState (st : List (String × Finset String)) (e x : String) :
    lookupA (createState st e) x =
      if x = e then some ((lookupA st e).getD ∅) else lookupA st x := by
  unfold createState
  by_cases hs : (lookupA st e).isSome
  · rw [if_pos hs]
    by_cases hxe : x = e
    · subst hxe
      obtain ⟨v, hv⟩ := Option.isSome_iff_exists.mp hs
      simp [hv]
    · simp [hxe]
  · rw [if_neg hs, lookupA_append]
    by_cases hxe : x = e
    · subst hxe
      rw [Option.not_isSome_iff_eq_none] at hs
      simp [hs, lookupA]
    · cases h : lookupA st x with
      | some v => simp [hxe]
      | none =>
        have hne : ¬ (e = x) := fun he => hxe he.symm
        simp [lookupA, hne, hxe]

theorem lookupA_createState_mono (st : List (String × Finset String)) (e x : String)
    (S : Finset String) (h : lookupA st x = some S) :
    lookupA (createState st e) x = some S := by
  rw [lookupA_createState]
  by_cases hxe : x = e
  · subst hxe; simp [h]
  · simp [hxe, h]

theorem lookupA_updateSt_mono (st : List (String × Finset String)) (e x : String)
    (s S : Finset String) (h : lookupA st x = some S) :
    ∃ T, lookupA (updateSt st e s) x = some T ∧ S ⊆ T := by
  by_cases hxe : x = e
  · subst hxe
    refine ⟨S ∪ s, ?_, Finset.subset_union_left⟩
    rw [lookupA_updateSt, if_pos rfl, h]
    rfl
  · refine ⟨S, ?_, subset_rfl⟩
    rw [lookupA_updateSt, if_neg hxe, h]

theorem runGroups_mono (gd : GD) (dom : String) (snap : List (String × Finset String))
    (src : List (String × List String)) :
    ∀ (st : List (String × Finset String)) (calls : List Call) (x : String)
      (S : Finset String), lookupA st x = some S →
      ∃ T, lookupA (runGroups gd dom snap src st calls).state x = some T ∧ S ⊆ T := by
  induction src with
  | nil =>
    intro st calls x S h
    exact ⟨S, h, subset_rfl⟩
  | cons p rest ih =>
    obtain ⟨k, ms⟩ := p
    intro st calls x S h
    cases hsnap : lookupA snap (to_group_email k dom) with
    | none =>
      cases hc : gd.createOk (to_group_email k dom) with
      | false =>
        rw [runGroups_absent_fail gd dom snap k ms rest st calls hsnap hc]
        exact ⟨S, h, subset_rfl⟩
      | true =>
        by_cases hn : normMembers ms = ∅
        · rw [runGroups_absent_ok_empty gd dom snap k ms rest st calls hsnap hc hn]
          exact ih _ _ x S (lookupA_createState_mono st _ x S h)
        · rw [runGroups_absent_ok_nonempty gd dom snap k ms rest st calls hsnap hc hn]
          obtain ⟨T, hT, hST⟩ := lookupA_updateSt_mono (createState st (to_group_email k dom))
            (to_group_email k dom) x _ S (lookupA_createState_mono st _ x S h)
          obtain ⟨U, hU, hTU⟩ := ih _ _ x T hT
          exact ⟨U, hU, hST.trans hTU⟩
    | some current =>
      by_cases hm : (current ∪ normMembers ms) \ current = ∅
      · rw [runGroups_present_noop gd dom snap k ms rest st calls current hsnap hm]
        exact ih _ _ x S h
      · rw [runGroups_present_add gd dom snap k ms rest st calls current hsnap hm]
        obtain ⟨T, hT, hST⟩ := lookupA_updateSt_mono st (to_group_email k dom) x _ S h
        obtain ⟨U, hU, hTU⟩ := ih _ _ x T hT
        exact ⟨U, hU, hST.trans hTU⟩

theorem addSt_allOk (st : List (String × Finset String)) (e : String) (s : Finset String) :
    addSt allOk st e s = updateSt st e s := by
  unfold addSt
  congr 1
  exact Finset.filter_true_of_mem (fun x _ => rfl)

theorem SnapLE_createState (snap st : List (String × Finset String)) (e : String)
    (h : SnapLE snap st) : SnapLE snap (createState st e) := by
  intro x c hx
  obtain ⟨S, hS, hcS⟩ := h x c hx
  exact ⟨S, lookupA_createState_mono st e x S hS, hcS⟩

theorem SnapLE_updateSt (snap st : List (String × Finset String)) (e : String)
    (s : Finset String) (h : SnapLE snap st) : SnapLE snap (updateSt st e s) := by
  intro x c hx
  obtain ⟨S, hS, hcS⟩ := h x c hx
  obtain ⟨T, hT, hST⟩ := lookupA_updateSt_mono st e x s S hS
  exact ⟨T, hT, hcS.trans hST⟩

theorem runGroups_allOk (dom : String) (snap : List (String × Finset String))
    (src : List (String × List String)) :
    ∀ (st : List (String × Finset String)) (calls : List Call), SnapLE snap st →
    (runGroups allOk dom snap src st calls).aborted = none
    ∧ ∀ k ms, (k, ms) ∈ src →
        ∃ S, lookupA (runGroups allOk dom snap src st calls).state (to_group_email k dom)
              = some S
          ∧ normMembers ms ⊆ S := by
  induction src with
  | nil =>
    intro st calls _
    exact ⟨rfl, by simp⟩
  | cons p rest ih =>
    obtain ⟨k, ms⟩ := p
    intro st calls hLE
    have hc : allOk.createOk (to_group_email k dom) = true := rfl
    cases hsnap : lookupA snap (to_group_email k dom) with
    | none =>
      by_cases hn : normMembers ms = ∅
      · rw [runGroups_absent_ok_empty allOk dom snap k ms rest st calls hsnap hc hn]
        have hLE1 := SnapLE_createState snap st (to_group_email k dom) hLE
        obtain ⟨hab, hcov⟩ := ih _ _ hLE1
        refine ⟨hab, ?_⟩
        intro k' ms' hmem
        rcases List.mem_cons.mp hmem with heq | hmem'
        · obtain ⟨hk, hms⟩ : k' = k ∧ ms' = ms := by
            injection heq with h1 h2
            exact ⟨h1, h2⟩
          rw [hk, hms]
          have h1 : lookupA (createState st (to_group_email k dom)) (to_group_email k dom)
              = some ((lookupA st (to_group_email k dom)).getD ∅) := by
            rw [lookupA_createState, if_pos rfl]
          obtain ⟨T, hT, _⟩ := runGroups_mono allOk dom snap rest _ _ _ _ h1
          exact ⟨T, hT, by simp [hn]⟩
        · exact hcov k' ms' hmem'
      · rw [runGroups_absent_ok_nonempty allOk dom snap k ms rest st calls hsnap hc hn,
          addSt_allOk]
        have hLE1 := SnapLE_updateSt snap _ (to_group_email k dom) (normMembers ms)
          (SnapLE_createState snap st (to_group_email k dom) hLE)
        obtain ⟨hab, hcov⟩ := ih _ _ hLE1
        refine ⟨hab, ?_⟩
        intro k' ms' hmem
        rcases List.mem_cons.mp hmem with heq | hmem'
        · obtain ⟨hk, hms⟩ : k' = k ∧ ms' = ms := by
            injection heq with h1 h2
            exact ⟨h1, h2⟩
          rw [hk, hms]
          have h1 : lookupA (createState st (to_group_email k dom)) (to_group_email k dom)
              = some ((lookupA st (to_group_email k dom)).getD ∅) := by
            rw [lookupA_createState, if_pos rfl]
          have h2 : lookupA
              (updateSt (createState st (to_group_email k dom)) (to_group_email k dom)
                (normMembers ms)) (to_group_email k dom)
              = some (((lookupA st (to_group_email k dom)).getD ∅) ∪ normMembers ms) := by
            rw [lookupA_updateSt, if_pos rfl, h1]
            rfl
          obtain ⟨T, hT, hsub⟩ := runGroups_mono allOk dom snap rest _ _ _ _ h2
          exact ⟨T, hT, Finset.subset_union_right.trans hsub⟩
        · exact hcov k' ms' hmem'
    | some current =>
      by_cases hm : (current ∪ normMembers ms) \ current = ∅
      · rw [runGroups_present_noop allOk dom snap k ms rest st calls current hsnap hm]
        obtain ⟨hab, hcov⟩ := ih _ _ hLE
        refine ⟨hab, ?_⟩
        intro k' ms' hmem
        rcases List.mem_cons.mp hmem with heq | hmem'
        · obtain ⟨hk, hms⟩ : k' = k ∧ ms' = ms := by
            injection heq with h1 h2
            exact ⟨h1, h2⟩
          rw [hk, hms]
          have hsubn : normMembers ms ⊆ current := by
            have := Finset.sdiff_eq_empty_iff_subset.mp hm
            exact Finset.subset_union_right.trans this
          obtain ⟨S, hS, hcS⟩ := hLE _ _ hsnap
          obtain ⟨T, hT, hST⟩ := runGroups_mono allOk dom snap rest _ _ _ _ hS
          exact ⟨T, hT, (hsubn.trans hcS).trans hST⟩
        · exact hcov k' ms' hmem'
      · rw [runGroups_present_add allOk dom snap k ms rest st calls current hsnap hm,
          addSt_allOk]
        obtain ⟨S, hS, hcS⟩ := hLE _ _ hsnap
        have hLE1 := SnapLE_updateSt snap st (to_group_email k dom)
          ((current ∪ normMembers ms) \ current) hLE
        obtain ⟨hab, hcov⟩ := ih _ _ hLE1
        refine ⟨hab, ?_⟩
        intro k' ms' hmem
        rcases List.mem_cons.mp hmem with heq | hmem'
        · obtain ⟨hk, hms⟩ : k' = k ∧ ms' = ms := by
            injection heq with h1 h2
            exact ⟨h1, h2⟩
          rw [hk, hms]
          have h2 : lookupA (updateSt st (to_group_email k dom)
              ((current ∪ normMembers ms) \ current)) (to_group_email k dom)
              = some (S ∪ ((current ∪ normMembers ms) \ current)) := by
            rw [lookupA_updateSt, if_pos rfl, hS]
            rfl
          obtain ⟨T, hT, hST⟩ := runGroups_mono allOk dom snap rest _ _ _ _ h2
          refine ⟨T, hT, ?_⟩
          have hn1 : normMembers ms ⊆ current ∪ ((current ∪ normMembers ms) \ current) := by
            intro x hx
            by_cases hxc : x ∈ current
            · exact Finset.mem_union_left _ hxc
            · exact Finset.mem_union_right _
                (Finset.mem_sdiff.mpr ⟨Finset.mem_union_right _ hx, hxc⟩)
          have hn2 : current ∪ ((current ∪ normMembers ms) \ current)
              ⊆ S ∪ ((current ∪ normMembers ms) \ current) :=
            Finset.union_subset_union_left hcS
          exact ((hn1.trans hn2).trans hST)
        · exact hcov k' ms' hmem'

theorem runGroups_noWrites (dom : String) (snap : List (String × Finset String))
    (src : List (String × List String))
    (hcov : ∀ k ms, (k, ms) ∈ src →
      ∃ S, lookupA snap (to_group_email k dom) = some S ∧ normMembers ms ⊆ S) :
    ∀ (st : List (String × Finset String)) (calls : List Call),
      runGroups allOk dom snap src st calls = ⟨calls, st, none⟩ := by
  induction src with
  | nil => intro st calls; rfl
  | cons p rest ih =>
    obtain ⟨k, ms⟩ := p
    intro st calls
    obtain ⟨S, hS, hsub⟩ := hcov k ms (List.mem_cons_self _ _)
    have hm : (S ∪ normMembers ms) \ S = ∅ :=
      Finset.sdiff_eq_empty_iff_subset.mpr (Finset.union_subset subset_rfl hsub)
    rw [runGroups_present_noop allOk dom snap k ms rest st calls S hS hm]
    exact ih (fun k' ms' h => hcov k' ms' (List.mem_cons_of_mem _ h)) st calls

theorem runGroups_preserve (gd : GD) (dom : String) (snap : List (String × Finset String))
    (src : List (String × List String)) (x : String)
    (hx : ∀ k ms, (k, ms) ∈ src → to_group_email k dom ≠ x) :
    ∀ (st : List (String × Finset String)) (calls : List Call),
      lookupA (runGroups gd dom snap src st calls).state x = lookupA st x := by
  induction src with
  | nil => intro st calls; rfl
  | cons p rest ih =>
    obtain ⟨k, ms⟩ := p
    intro st calls
    have hkx : to_group_email k dom ≠ x := hx k ms (List.mem_cons_self _ _)
    have hxrest : ∀ k' ms', (k', ms') ∈ rest → to_group_email k' dom ≠ x :=
      fun k' ms' h => hx k' ms' (List.mem_cons_of_mem _ h)
    have hcr : lookupA (createState st (to_group_email k dom)) x = lookupA st x := by
      rw [lookupA_createState, if_neg (fun h => hkx h.symm)]
    cases hsnap : lookupA snap (to_group_email k dom) with
    | none =>
      cases hc : gd.createOk (to_group_email k dom) with
      | false =>
        rw [runGroups_absent_fail gd dom snap k ms rest st calls hsnap hc]
      | true =>
        by_cases hn : normMembers ms = ∅
        · rw [runGroups_absent_ok_empty gd dom snap k ms rest st calls hsnap hc hn,
            ih hxrest _ _, hcr]
        · rw [runGroups_absent_ok_nonempty gd dom snap k ms rest st calls hsnap hc hn,
            ih hxrest _ _]
          unfold addSt
          rw [lookupA_updateSt, if_neg (fun h => hkx h.symm), hcr]
    | some current =>
      by_cases hm : (current ∪ normMembers ms) \ current = ∅
      · rw [runGroups_present_noop gd dom snap k ms rest st calls current hsnap hm, ih hxrest _ _]
      · rw [runGroups_present_add gd dom snap k ms rest st calls current hsnap hm, ih hxrest _ _]
        unfold addSt
        rw [lookupA_updateSt, if_neg (fun h => hkx h.symm)]

theorem runGroups_entry_union (dom : String) (snap : List (String × Finset String))
    (k : String) (ms : List String) (current : Finset String)
    (hsnap : lookupA snap (to_group_email k dom) = some current) :
    ∀ (src : List (String × List String)),
    (∀ p ∈ src, to_group_email p.1 dom = to_group_email k dom → p = (k, ms)) →
    ∀ (st : List (String × Finset String)) (calls : List Call),
    (lookupA st (to_group_email k dom) = some current
      ∨ lookupA st (to_group_email k dom) = some (current ∪ normMembers ms)) →
    (lookupA (runGroups allOk dom snap src st calls).state (to_group_email k dom)
        = some (current ∪ normMembers ms)
      ∨ ((k, ms) ∉ src
        ∧ lookupA (runGroups allOk dom snap src st calls).state (to_group_email k dom)
            = lookupA st (to_group_email k dom))) := by
  intro src
  induction src with
  | nil =>
    intro _ st calls _
    exact Or.inr ⟨List.not_mem_nil _, rfl⟩
  | cons p rest ih =>
    obtain ⟨k', ms'⟩ := p
    intro huniq st calls hst
    by_cases hpk : (k', ms') = (k, ms)
    · obtain ⟨hk, hms⟩ : k' = k ∧ ms' = ms := by
        injection hpk with h1 h2
        exact ⟨h1, h2⟩
      subst hk
      subst hms
      -- the head is (k, ms) itself: after processing it, the entry is the union
      have hstep : ∃ st2 calls2,
          runGroups allOk dom snap ((k', ms') :: rest) st calls
            = runGroups allOk dom snap rest st2 calls2
          ∧ lookupA st2 (to_group_email k' dom) = some (current ∪ normMembers ms') := by
        by_cases hm : (current ∪ normMembers ms') \ current = ∅
        · refine ⟨st, calls,
            runGroups_present_noop allOk dom snap k' ms' rest st calls current hsnap hm, ?_⟩
          have hsubn : normMembers ms' ⊆ current :=
            Finset.subset_union_right.trans (Finset.sdiff_eq_empty_iff_subset.mp hm)
          have hcu : current ∪ normMembers ms' = current := Finset.union_eq_left.mpr hsubn
          rcases hst with h | h
          · rw [h, hcu]
          · rw [h]
        · refine ⟨addSt allOk st (to_group_email k' dom) ((current ∪ normMembers ms') \ current),
            calls ++ addCalls (to_group_email k' dom) ((current ∪ normMembers ms') \ current),
            runGroups_present_add allOk dom snap k' ms' rest st calls current hsnap hm, ?_⟩
          rw [addSt_allOk, lookupA_updateSt, if_pos rfl]
          rcases hst with h | h
          · rw [h]
            have : current ∪ ((current ∪ normMembers ms') \ current)
                = current ∪ normMembers ms' := by
              rw [Finset.union_sdiff_self_eq_union, Finset.union_left_idem]
            simp only [Option.map_some']
            rw [this]
          · rw [h]
            have : (current ∪ normMembers ms') ∪ ((current ∪ normMembers ms') \ current)
                = current ∪ normMembers ms' :=
              Finset.union_eq_left.mpr (Finset.sdiff_subset)
            simp only [Option.map_some']
            rw [this]
      obtain ⟨st2, calls2, heq, hst2⟩ := hstep
      rw [heq]
      have huniqrest : ∀ p ∈ rest, to_group_email p.1 dom = to_group_email k' dom
          → p = (k', ms') := fun p hp h => huniq p (List.mem_cons_of_mem _ hp) h
      rcases ih huniqrest st2 calls2 (Or.inr hst2) with h | ⟨_, h⟩
      · exact Or.inl h
      · exact Or.inl (h.trans hst2)
    · -- the head is a different source entry: by uniqueness its email differs
      have hne : to_group_email k' dom ≠ to_group_email k dom := by
        intro h
        exact hpk (huniq (k', ms') (List.mem_cons_self _ _) h)
      have huniqrest : ∀ p ∈ rest, to_group_email p.1 dom = to_group_email k dom
          → p = (k, ms) := fun p hp h => huniq p (List.mem_cons_of_mem _ hp) h
      have hstep : ∃ st2 calls2,
          runGroups allOk dom snap ((k', ms') :: rest) st calls
            = runGroups allOk dom snap rest st2 calls2
          ∧ lookupA st2 (to_group_email k dom) = lookupA st (to_group_email k dom) := by
        have hc : allOk.createOk (to_group_email k' dom) = true := rfl
        cases hsnap' : lookupA snap (to_group_email k' dom) with
        | none =>
          by_cases hn : normMembers ms' = ∅
          · exact ⟨_, _, runGroups_absent_ok_empty allOk dom snap k' ms' rest st calls
              hsnap' hc hn, by rw [lookupA_createState, if_neg (fun h => hne h.symm)]⟩
          · refine ⟨_, _, runGroups_absent_ok_nonempty allOk dom snap k' ms' rest st calls
              hsnap' hc hn, ?_⟩
            rw [addSt_allOk, lookupA_updateSt, if_neg (fun h => hne h.symm),
              lookupA_createState, if_neg (fun h => hne h.symm)]
        | some current' =>
          by_cases hm : (current' ∪ normMembers ms') \ current' = ∅
          · exact ⟨_, _, runGroups_present_noop allOk dom snap k' ms' rest st calls
              current' hsnap' hm, rfl⟩
          · refine ⟨_, _, runGroups_present_add allOk dom snap k' ms' rest st calls
              current' hsnap' hm, ?_⟩
            rw [addSt_allOk, lookupA_updateSt, if_neg (fun h => hne h.symm)]
      obtain ⟨st2, calls2, heq, hst2⟩ := hstep
      rw [heq]
      have hst' : lookupA st2 (to_group_email k dom) = some current
          ∨ lookupA st2 (to_group_email k dom) = some (current ∪ normMembers ms) := by
        rcases hst with h | h
        · exact Or.inl (hst2.trans h)
        · exact Or.inr (hst2.trans h)
      rcases ih huniqrest st2 calls2 hst' with h | ⟨hnm, h⟩
      · exact Or.inl h
      · refine Or.inr ⟨?_, h.trans hst2⟩
        intro hmem
        rcases List.mem_cons.mp hmem with heq2 | hmem2
        · exact hpk heq2.symm
        · exact hnm hmem2

theorem runGroups_append (gd : GD) (dom : String) (snap : List (String × Finset String))
    (l1 l2 : List (String × List String)) :
    ∀ (st : List (String × Finset String)) (calls : List Call),
      runGroups gd dom snap (l1 ++ l2) st calls =
        match (runGroups gd dom snap l1 st calls).aborted with
        | none => runGroups gd dom snap l2 (runGroups gd dom snap l1 st calls).state
            (runGroups gd dom snap l1 st calls).calls
        | some _ => runGroups gd dom snap l1 st calls := by
  induction l1 with
  | nil => intro st calls; rfl
  | cons p rest ih =>
    obtain ⟨k, ms⟩ := p
    intro st calls
    cases hsnap : lookupA snap (to_group_email k dom) with
    | none =>
      cases hc : gd.createOk (to_group_email k dom) with
      | false =>
        rw [List.cons_append,
          runGroups_absent_fail gd dom snap k ms (rest ++ l2) st calls hsnap hc,
          runGroups_absent_fail gd dom snap k ms rest st calls hsnap hc]
      | true =>
        by_cases hn : normMembers ms = ∅
        · rw [List.cons_append,
            runGroups_absent_ok_empty gd dom snap k ms (rest ++ l2) st calls hsnap hc hn,
            runGroups_absent_ok_empty gd dom snap k ms rest st calls hsnap hc hn, ih]
        · rw [List.cons_append,
            runGroups_absent_ok_nonempty gd dom snap k ms (rest ++ l2) st calls hsnap hc hn,
            runGroups_absent_ok_nonempty gd dom snap k ms rest st calls hsnap hc hn, ih]
    | some current =>
      by_cases hm : (current ∪ normMembers ms) \ current = ∅
      · rw [List.cons_append,
          runGroups_present_noop gd dom snap k ms (rest ++ l2) st calls current hsnap hm,
          runGroups_present_noop gd dom snap k ms rest st calls current hsnap hm, ih]
      · rw [List.cons_append,
          runGroups_present_add gd dom snap k ms (rest ++ l2) st calls current hsnap hm,
          runGroups_present_add gd dom snap k ms rest st calls current hsnap hm, ih]

theorem retryGo_allFail {α : Type} (op : Nat → OpRes α) (backoff maxDelay : ℚ)
    (f : Nat → Nat) :
    ∀ (rem : Nat), 1 ≤ rem → ∀ (idx : Nat) (delay : ℚ) (sleeps : List ℚ),
    (∀ j, idx ≤ j → j < idx + rem → op j = .errMatch (f j)) →
    retryGo op backoff maxDelay rem idx delay sleeps =
      ⟨.error (true, f (idx + rem - 1)), idx + rem,
       sleeps ++ (List.range (rem - 1)).map (fun j => min (delay * backoff ^ j) maxDelay)⟩ := by
  intro rem h1
  induction rem, h1 using Nat.le_induction with
  | base =>
    intro idx delay sleeps hop
    have h0 : op idx = .errMatch (f idx) := hop idx le_rfl (by omega)
    simp [retryGo, h0]
  | succ rem h1 ih =>
    intro idx delay sleeps hop
    have h0 : op idx = .errMatch (f idx) := hop idx le_rfl (by omega)
    have hrem : ¬ (rem = 0) := by omega
    have hstep : retryGo op backoff maxDelay (rem + 1) idx delay sleeps =
        retryGo op backoff maxDelay rem (idx + 1) (delay * backoff)
          (sleeps ++ [min delay maxDelay]) := by
      simp [retryGo, h0, hrem]
    rw [hstep, ih (idx + 1) (delay * backoff) (sleeps ++ [min delay maxDelay])
      (fun j hj1 hj2 => hop j (by omega) (by omega))]
    have hidx : idx + 1 + rem - 1 = idx + (rem + 1) - 1 := by omega
    have hidx2 : idx + 1 + rem = idx + (rem + 1) := by omega
    rw [hidx, hidx2]
    have hsl : (sleeps ++ [min delay maxDelay]) ++
          (List.range (rem - 1)).map (fun j => min (delay * backoff * backoff ^ j) maxDelay)
        = sleeps ++ (List.range (rem + 1 - 1)).map
            (fun j => min (delay * backoff ^ j) maxDelay) := by
      rw [List.append_assoc]
      congr 1
      have : rem + 1 - 1 = (rem - 1) + 1 := by omega
      rw [this, List.range_succ_eq_map]
      simp only [List.map_cons, List.map_map, List.singleton_append]
      congr 1
      · rw [pow_zero, mul_one]
      · apply List.map_congr_left
        intro j _
        simp only [Function.comp_apply]
        congr 1
        rw [pow_succ]
        ring
    rw [hsl]

theorem collectLoop_notFound :
    ∀ (ps : List (List MemberObj)) (acc : Finset String),
    collectLoop .notFound ps acc =
      .ok (ps.foldl (fun a p => a ∪ (memberEmails p).toFinset) acc) := by
  intro ps
  induction ps with
  | nil => intro acc; rfl
  | cons p rest ih => intro acc; exact ih (acc ∪ (memberEmails p).toFinset)

theorem collectMembers_notFound (b : MBehavior) (h : b.tail = .notFound) :
    collectMembers b = .ok (unionPages b.pages) := by
  rw [collectMembers, h, collectLoop_notFound]
  rfl

theorem collectLoop_failCode :
    ∀ (ps : List (List MemberObj)) (acc : Finset String) (c : Nat),
    collectLoop (.failCode c) ps acc = .error c := by
  intro ps
  induction ps with
  | nil => intro acc c; rfl
  | cons p rest ih => intro acc c; exact ih (acc ∪ (memberEmails p).toFinset) c

theorem processGroups_cons_skip (mb : String → MBehavior) (pfx : Option String)
    (g : GroupObj) (gs : List GroupObj) (acc : List (String × Finset String))
    (hskip : groupPass pfx g = false ∨ g.email = none ∨ g.email = some "") :
    processGroups mb pfx (g :: gs) acc = processGroups mb pfx gs acc := by
  rcases hskip with h | h | h
  · simp [processGroups, h]
  · simp [processGroups, h]
  · simp [processGroups, h]

theorem processGroups_cons_ok (mb : String → MBehavior) (pfx : Option String)
    (g : GroupObj) (gs : List GroupObj) (acc : List (String × Finset String))
    (e : String) (s : Finset String)
    (he : g.email = some e) (hne : ¬ (e = "")) (hp : groupPass pfx g = true)
    (hc : collectMembers (mb e) = .ok s) :
    processGroups mb pfx (g :: gs) acc = processGroups mb pfx gs (upsert acc e s) := by
  simp [processGroups, he, hne, hp, hc]

theorem processGroups_cons_err (mb : String → MBehavior) (pfx : Option String)
    (g : GroupObj) (gs : List GroupObj) (acc : List (String × Finset String))
    (e : String) (c : Nat)
    (he : g.email = some e) (hne : ¬ (e = "")) (hp : groupPass pfx g = true)
    (hc : collectMembers (mb e) = .error c) :
    processGroups mb pfx (g :: gs) acc = .error c := by
  simp [processGroups, he, hne, hp, hc]

theorem processGroups_append (mb : String → MBehavior) (pfx : Option String)
    (l1 l2 : List GroupObj) :
    ∀ acc, processGroups mb pfx (l1 ++ l2) acc =
      match processGroups mb pfx l1 acc with
      | .error c => .error c
      | .ok a2 => processGroups mb pfx l2 a2 := by
  induction l1 with
  | nil => intro acc; rfl
  | cons g gs ih =>
    intro acc
    by_cases hp : groupPass pfx g = true
    · cases he : g.email with
      | none =>
        rw [List.cons_append, processGroups_cons_skip mb pfx g (gs ++ l2) acc (Or.inr (Or.inl he)),
          processGroups_cons_skip mb pfx g gs acc (Or.inr (Or.inl he)), ih]
      | some e =>
        by_cases hne : e = ""
        · subst hne
          rw [List.cons_append,
            processGroups_cons_skip mb pfx g (gs ++ l2) acc (Or.inr (Or.inr he)),
            processGroups_cons_skip mb pfx g gs acc (Or.inr (Or.inr he)), ih]
        · cases hc : collectMembers (mb e) with
          | error c =>
            rw [List.cons_append,
              processGroups_cons_err mb pfx g (gs ++ l2) acc e c he hne hp hc,
              processGroups_cons_err mb pfx g gs acc e c he hne hp hc]
          | ok s =>
            rw [List.cons_append,
              processGroups_cons_ok mb pfx g (gs ++ l2) acc e s he hne hp hc,
              processGroups_cons_ok mb pfx g gs acc e s he hne hp hc, ih]
    · have hp' : groupPass pfx g = false := by
        cases h : groupPass pfx g
        · rfl
        · exact absurd h hp
      rw [List.cons_append, processGroups_cons_skip mb pfx g (gs ++ l2) acc (Or.inl hp'),
        processGroups_cons_skip mb pfx g gs acc (Or.inl hp'), ih]

theorem getAllPages_flatten (mb : String → MBehavior) (pfx : Option String) :
    ∀ (pgs : List (List GroupObj)) (acc : List (String × Finset String)),
      getAllPages mb pfx pgs acc = processGroups mb pfx pgs.flatten acc := by
  intro pgs
  induction pgs with
  | nil => intro acc; rfl
  | cons pg rest ih =>
    intro acc
    rw [List.flatten_cons, processGroups_append]
    simp only [getAllPages]
    cases processGroups mb pfx pg acc with
    | error c => rfl
    | ok a2 => exact ih a2

theorem emailOk_false_iff (g : GroupObj) :
    emailOk g = false ↔ g.email = none ∨ g.email = some "" := by
  cases h : g.email with
  | none => simp [emailOk, h]
  | some e => simp [emailOk, h]

theorem upsert_mem (acc : List (String × Finset String)) (e : String)
    (s : Finset String) (q : String × Finset String) (hq : q ∈ upsert acc e s) :
    q ∈ acc ∨ q.1 = e := by
  unfold upsert at hq
  by_cases hs : (lookupA acc e).isSome
  · rw [if_pos hs] at hq
    obtain ⟨p, hp, hpq⟩ := List.mem_map.mp hq
    by_cases hpe : p.1 = e
    · rw [if_pos hpe] at hpq
      right
      rw [← hpq]
      exact hpe
    · rw [if_neg hpe] at hpq
      left
      rw [← hpq]
      exact hp
  · rw [if_neg hs] at hq
    rcases List.mem_append.mp hq with h | h
    · exact Or.inl h
    · right
      rw [List.mem_singleton.mp h]

theorem processGroups_ok_notreg (mb : String → MBehavior) (pfx : Option String)
    (e : String) :
    ∀ (gs : List GroupObj) (acc out : List (String × Finset String)),
    processGroups mb pfx gs acc = .ok out → ¬ RegL pfx gs e →
    lookupA out e = lookupA acc e := by
  intro gs
  induction gs with
  | nil =>
    intro acc out hok _
    injection hok with h
    rw [← h]
  | cons g rest ih =>
    intro acc out hok hnreg
    have hnregrest : ¬ RegL pfx rest e := by
      intro ⟨g', hg', hprops⟩
      exact hnreg ⟨g', List.mem_cons_of_mem _ hg', hprops⟩
    by_cases hp : groupPass pfx g = true
    · cases he : g.email with
      | none =>
        rw [processGroups_cons_skip mb pfx g rest acc (Or.inr (Or.inl he))] at hok
        exact ih acc out hok hnregrest
      | some e' =>
        by_cases hne : e' = ""
        · subst hne
          rw [processGroups_cons_skip mb pfx g rest acc (Or.inr (Or.inr he))] at hok
          exact ih acc out hok hnregrest
        · have hee : ¬ (e = e') := by
            intro hcontra
            exact hnreg ⟨g, List.mem_cons_self _ _, hp, hcontra ▸ he, hcontra ▸ hne⟩
          cases hc : collectMembers (mb e') with
          | error c =>
            rw [processGroups_cons_err mb pfx g rest acc e' c he hne hp hc] at hok
            exact absurd hok (by simp)
          | ok s =>
            rw [processGroups_cons_ok mb pfx g rest acc e' s he hne hp hc] at hok
            rw [ih _ out hok hnregrest, lookupA_upsert, if_neg hee]
    · have hp' : groupPass pfx g = false := by
        cases h : groupPass pfx g
        · rfl
        · exact absurd h hp
      rw [processGroups_cons_skip mb pfx g rest acc (Or.inl hp')] at hok
      exact ih acc out hok hnregrest

theorem processGroups_ok_reg (mb : String → MBehavior) (pfx : Option String)
    (e : String) :
    ∀ (gs : List GroupObj) (acc out : List (String × Finset String)),
    processGroups mb pfx gs acc = .ok out → RegL pfx gs e →
    ∃ s, collectMembers (mb e) = .ok s ∧ lookupA out e = some s := by
  intro gs
  induction gs with
  | nil =>
    intro acc out _ hreg
    obtain ⟨g, hg, _⟩ := hreg
    exact absurd hg (List.not_mem_nil g)
  | cons g rest ih =>
    intro acc out hok hreg
    by_cases hp : groupPass pfx g = true
    · cases he : g.email with
      | none =>
        rw [processGroups_cons_skip mb pfx g rest acc (Or.inr (Or.inl he))] at hok
        refine ih acc out hok ?_
        obtain ⟨g', hg', hprops⟩ := hreg
        rcases List.mem_cons.mp hg' with rfl | hg''
        · rw [he] at hprops
          exact absurd hprops.2.1 (by simp)
        · exact ⟨g', hg'', hprops⟩
      | some e' =>
        by_cases hne : e' = ""
        · subst hne
          rw [processGroups_cons_skip mb pfx g rest acc (Or.inr (Or.inr he))] at hok
          refine ih acc out hok ?_
          obtain ⟨g', hg', hprops⟩ := hreg
          rcases List.mem_cons.mp hg' with rfl | hg''
          · rw [he] at hprops
            have he2 : e = "" := by
              have := hprops.2.1
              injection this with h2
              exact h2.symm
            exact absurd he2 hprops.2.2
          · exact ⟨g', hg'', hprops⟩
        · cases hc : collectMembers (mb e') with
          | error c =>
            rw [processGroups_cons_err mb pfx g rest acc e' c he hne hp hc] at hok
            exact absurd hok (by simp)
          | ok s =>
            rw [processGroups_cons_ok mb pfx g rest acc e' s he hne hp hc] at hok
            by_cases hee : e = e'
            · subst hee
              by_cases hrr : RegL pfx rest e
              · exact ih _ out hok hrr
              · refine ⟨s, hc, ?_⟩
                rw [processGroups_ok_notreg mb pfx e rest _ out hok hrr,
                  lookupA_upsert, if_pos rfl]
            · refine ih _ out hok ?_
              obtain ⟨g', hg', hprops⟩ := hreg
              rcases List.mem_cons.mp hg' with rfl | hg''
              · rw [he] at hprops
                have : e = e' := by
                  have h2 := hprops.2.1
                  injection h2 with h3
                  exact h3.symm
                exact absurd this hee
              · exact ⟨g', hg'', hprops⟩
    · have hp' : groupPass pfx g = false := by
        cases h : groupPass pfx g
        · rfl
        · exact absurd h hp
      rw [processGroups_cons_skip mb pfx g rest acc (Or.inl hp')] at hok
      refine ih acc out hok ?_
      obtain ⟨g', hg', hprops⟩ := hreg
      rcases List.mem_cons.mp hg' with rfl | hg''
      · exact absurd hprops.1 (by rw [hp']; simp)
      · exact ⟨g', hg'', hprops⟩

theorem processGroups_err_reg (mb : String → MBehavior) (pfx : Option String)
    (e : String) (c : Nat) (hc : collectMembers (mb e) = .error c) :
    ∀ (gs : List GroupObj) (acc : List (String × Finset String)),
    RegL pfx gs e → ∃ c', processGroups mb pfx gs acc = .error c' := by
  intro gs
  induction gs with
  | nil =>
    intro acc hreg
    obtain ⟨g, hg, _⟩ := hreg
    exact absurd hg (List.not_mem_nil g)
  | cons g rest ih =>
    intro acc hreg
    by_cases hp : groupPass pfx g = true
    · cases he : g.email with
      | none =>
        rw [processGroups_cons_skip mb pfx g rest acc (Or.inr (Or.inl he))]
        refine ih acc ?_
        obtain ⟨g', hg', hprops⟩ := hreg
        rcases List.mem_cons.mp hg' with rfl | hg''
        · rw [he] at hprops
          exact absurd hprops.2.1 (by simp)
        · exact ⟨g', hg'', hprops⟩
      | some e' =>
        by_cases hne : e' = ""
        · subst hne
          rw [processGroups_cons_skip mb pfx g rest acc (Or.inr (Or.inr he))]
          refine ih acc ?_
          obtain ⟨g', hg', hprops⟩ := hreg
          rcases List.mem_cons.mp hg' with rfl | hg''
          · rw [he] at hprops
            have he2 : e = "" := by
              have h2 := hprops.2.1
              injection h2 with h3
              exact h3.symm
            exact absurd he2 hprops.2.2
          · exact ⟨g', hg'', hprops⟩
        · cases hcc : collectMembers (mb e') with
          | error c2 =>
            exact ⟨c2, processGroups_cons_err mb pfx g rest acc e' c2 he hne hp hcc⟩
          | ok s =>
            rw [processGroups_cons_ok mb pfx g rest acc e' s he hne hp hcc]
            refine ih _ ?_
            obtain ⟨g', hg', hprops⟩ := hreg
            rcases List.mem_cons.mp hg' with rfl | hg''
            · rw [he] at hprops
              have hee : e = e' := by
                have h2 := hprops.2.1
                injection h2 with h3
                exact h3.symm
              subst hee
              rw [hc] at hcc
              exact absurd hcc (by simp)
            · exact ⟨g', hg'', hprops⟩
    · have hp' : groupPass pfx g = false := by
        cases h : groupPass pfx g
        · rfl
        · exact absurd h hp
      rw [processGroups_cons_skip mb pfx g rest acc (Or.inl hp')]
      refine ih acc ?_
      obtain ⟨g', hg', hprops⟩ := hreg
      rcases List.mem_cons.mp hg' with rfl | hg''
      · exact absurd hprops.1 (by rw [hp']; simp)
      · exact ⟨g', hg'', hprops⟩

theorem processGroups_keys (mb : String → MBehavior) (pfx : Option String) :
    ∀ (gs : List GroupObj) (acc out : List (String × Finset String)),
    processGroups mb pfx gs acc = .ok out →
    ∀ p ∈ out, p ∈ acc ∨ ∃ g ∈ gs, g.email = some p.1 ∧ p.1 ≠ "" := by
  intro gs
  induction gs with
  | nil =>
    intro acc out hok p hp
    injection hok with h
    exact Or.inl (h ▸ hp)
  | cons g rest ih =>
    intro acc out hok p hp
    by_cases hpass : groupPass pfx g = true
    · cases he : g.email with
      | none =>
        rw [processGroups_cons_skip mb pfx g rest acc (Or.inr (Or.inl he))] at hok
        rcases ih acc out hok p hp with h | ⟨g', hg', hprops⟩
        · exact Or.inl h
        · exact Or.inr ⟨g', List.mem_cons_of_mem _ hg', hprops⟩
      | some e' =>
        by_cases hne : e' = ""
        · subst hne
          rw [processGroups_cons_skip mb pfx g rest acc (Or.inr (Or.inr he))] at hok
          rcases ih acc out hok p hp with h | ⟨g', hg', hprops⟩
          · exact Or.inl h
          · exact Or.inr ⟨g', List.mem_cons_of_mem _ hg', hprops⟩
        · cases hc : collectMembers (mb e') with
          | error c =>
            rw [processGroups_cons_err mb pfx g rest acc e' c he hne hpass hc] at hok
            exact absurd hok (by simp)
          | ok s =>
            rw [processGroups_cons_ok mb pfx g rest acc e' s he hne hpass hc] at hok
            rcases ih _ out hok p hp with h | ⟨g', hg', hprops⟩
            · rcases upsert_mem acc e' s p h with h2 | h2
              · exact Or.inl h2
              · exact Or.inr ⟨g, List.mem_cons_self _ _, by rw [h2]; exact he, by rw [h2]; exact hne⟩
            · exact Or.inr ⟨g', List.mem_cons_of_mem _ hg', hprops⟩
    · have hp' : groupPass pfx g = false := by
        cases h : groupPass pfx g
        · rfl
        · exact absurd h hpass
      rw [processGroups_cons_skip mb pfx g rest acc (Or.inl hp')] at hok
      rcases ih acc out hok p hp with h | ⟨g', hg', hprops⟩
      · exact Or.inl h
      · exact Or.inr ⟨g', List.mem_cons_of_mem _ hg', hprops⟩

theorem processGroups_filter_emailOk (mb : String → MBehavior) (pfx : Option String) :
    ∀ (gs : List GroupObj) (acc : List (String × Finset String)),
    processGroups mb pfx gs acc = processGroups mb pfx (gs.filter emailOk) acc := by
  intro gs
  induction gs with
  | nil => intro acc; rfl
  | cons g rest ih =>
    intro acc
    cases hok : emailOk g with
    | false =>
      have hfil : (g :: rest).filter emailOk = rest.filter emailOk := by
        rw [List.filter_cons_of_neg (by rw [hok]; simp)]
      rw [hfil]
      rcases (emailOk_false_iff g).mp hok with he | he
      · rw [processGroups_cons_skip mb pfx g rest acc (Or.inr (Or.inl he))]
        exact ih acc
      · rw [processGroups_cons_skip mb pfx g rest acc (Or.inr (Or.inr he))]
        exact ih acc
    | true =>
      have hfil : (g :: rest).filter emailOk = g :: rest.filter emailOk := by
        rw [List.filter_cons_of_pos (by rw [hok])]
      rw [hfil]
      obtain ⟨e, he, hne⟩ : ∃ e, g.email = some e ∧ ¬ (e = "") := by
        cases h : g.email with
        | none => rw [emailOk, h] at hok; exact absurd hok (by simp)
        | some e =>
          refine ⟨e, rfl, ?_⟩
          rw [emailOk, h] at hok
          simpa using hok
      by_cases hpass : groupPass pfx g = true
      · cases hc : collectMembers (mb e) with
        | error c =>
          rw [processGroups_cons_err mb pfx g rest acc e c he hne hpass hc,
            processGroups_cons_err mb pfx g (rest.filter emailOk) acc e c he hne hpass hc]
        | ok s =>
          rw [processGroups_cons_ok mb pfx g rest acc e s he hne hpass hc,
            processGroups_cons_ok mb pfx g (rest.filter emailOk) acc e s he hne hpass hc]
          exact ih _
      · have hp' : groupPass pfx g = false := by
          cases h : groupPass pfx g
          · rfl
          · exact absurd h hpass
        rw [processGroups_cons_skip mb pfx g rest acc (Or.inl hp'),
          processGroups_cons_skip mb pfx g (rest.filter emailOk) acc (Or.inl hp')]
        exact ih acc

theorem flatten_map_filter (gpages : List (List GroupObj)) :
    (gpages.map (List.filter emailOk)).flatten = gpages.flatten.filter emailOk := by
  induction gpages with
  | nil => rfl
  | cons pg rest ih =>
    rw [List.map_cons, List.flatten_cons, List.flatten_cons, List.filter_append, ih]

/-- C1: running the merge engine a second time over the source mapping and the
target state produced by a completed, all-writes-successful first run issues
zero remote write calls (no createGroup and no addMember calls). -/
theorem C1_merge_idempotence (dom : String) (src : List (String × List String))
    (snap : List (String × Finset String)) :
    (runMerge allOk dom src (runMerge allOk dom src snap).state).calls = [] := by
  have hLE : SnapLE snap snap := fun e c h => ⟨c, h, subset_rfl⟩
  have hcov := (runGroups_allOk dom snap src snap [] hLE).2
  have h := runGroups_noWrites dom (runMerge allOk dom src snap).state src
    (fun k ms hm => hcov k ms hm) (runMerge allOk dom src snap).state []
  rw [runMerge, h]

/-- C2: for a group present in both the source mapping and the target
snapshot, the post-run member set equals `current ∪ normalized(desired)` when
all writes succeed, and — for any failure oracle — the post-run member set of
any snapshot group contains the pre-run set (never a strict subset; the
engine issues no removal or deletion calls). -/
theorem C2_union_only (dom : String) (src : List (String × List String))
    (snap : List (String × Finset String)) (k : String) (ms : List String)
    (current : Finset String)
    (hmem : (k, ms) ∈ src)
    (huniq : ∀ p ∈ src, to_group_email p.1 dom = to_group_email k dom → p = (k, ms))
    (hsnap : lookupA snap (to_group_email k dom) = some current) :
    lookupA (runMerge allOk dom src snap).state (to_group_email k dom)
      = some (current ∪ normMembers ms)
    ∧ ∀ (gd : GD) (e : String) (c : Finset String), lookupA snap e = some c →
        ∃ S, lookupA (runMerge gd dom src snap).state e = some S ∧ c ⊆ S := by
  constructor
  · rcases runGroups_entry_union dom snap k ms current hsnap src huniq snap []
      (Or.inl hsnap) with h | ⟨hnm, _⟩
    · exact h
    · exact absurd hmem hnm
  · intro gd e c hc
    exact runGroups_mono gd dom snap src snap [] e c hc

/-- Witness for C2 at a concrete instance: target group `g@x.com` holds
`a@x.com`, the source wants `B@x.com`; after the run the member set is
exactly the union. -/
theorem C2_union_only_witness :
    lookupA (runMerge allOk "x.com" [("g", ["B@x.com"])]
        [("g@x.com", {"a@x.com"})]).state (to_group_email "g" "x.com")
      = some ({"a@x.com"} ∪ normMembers ["B@x.com"]) :=
  (C2_union_only "x.com" [("g", ["B@x.com"])] [("g@x.com", {"a@x.com"})] "g"
    ["B@x.com"] {"a@x.com"} (by decide)
    (fun p hp _ => by simpa using hp) (by decide)).1

/-- C3 counterexample: with two source groups where creating the first fails,
the code aborts the whole run — the second group is never processed (its
create call is never issued), contradicting the claim that other groups
continue. -/
theorem C3_counterexample :
    runMerge gdFailA "x.com" [("a", ["m@x.com"]), ("b", ["n@x.com"])] []
      = ⟨[Call.create "a@x.com" "a"], [], some "a"⟩
    ∧ Call.create "b@x.com" "b"
        ∉ (runMerge gdFailA "x.com" [("a", ["m@x.com"]), ("b", ["n@x.com"])] []).calls
    ∧ Call.addM "a@x.com" "m@x.com"
        ∉ (runMerge gdFailA "x.com" [("a", ["m@x.com"]), ("b", ["n@x.com"])] []).calls := by
  decide

/-- C3 amended: a createGroup failure for a group absent from the snapshot
aborts the entire run at that group — none of that group's members are added
and no subsequent source group is processed (the exception propagates out of
`union_update_group_members`). -/
theorem C3_create_failure_aborts (gd : GD) (dom : String)
    (snap : List (String × Finset String)) (pre : List (String × List String))
    (k : String) (ms : List String) (post : List (String × List String))
    (hpre : (runGroups gd dom snap pre snap []).aborted = none)
    (habsent : lookupA snap (to_group_email k dom) = none)
    (hfail : gd.createOk (to_group_email k dom) = false) :
    runMerge gd dom (pre ++ (k, ms) :: post) snap =
      ⟨(runGroups gd dom snap pre snap []).calls
          ++ [Call.create (to_group_email k dom) k],
        (runGroups gd dom snap pre snap []).state, some k⟩ := by
  rw [runMerge, runGroups_append]
  simp only [hpre]
  exact runGroups_absent_fail gd dom snap k ms post
    (runGroups gd dom snap pre snap []).state
    (runGroups gd dom snap pre snap []).calls habsent hfail

/-- Witness for C3's amended statement at a concrete instance. -/
theorem C3_create_failure_aborts_witness :
    runMerge gdFailA "x.com" ([("c", ["p@x.com"])] ++ ("a", ["m@x.com"]) :: [("b", ["n@x.com"])]) []
      = ⟨(runGroups gdFailA "x.com" [] [("c", ["p@x.com"])] [] []).calls
            ++ [Call.create (to_group_email "a" "x.com") "a"],
          (runGroups gdFailA "x.com" [] [("c", ["p@x.com"])] [] []).state, some "a"⟩ :=
  C3_create_failure_aborts gdFailA "x.com" [] [("c", ["p@x.com"])] "a" ["m@x.com"]
    [("b", ["n@x.com"])] (by decide) (by decide) (by decide)

/-- C4 counterexample: a create-group call whose remote attempts all answer
409 "already exists" does NOT return as a success/no-op — the conflict is a
matching exception for the retry wrapper and, after 5 attempts, propagates to
the Merge Engine as a raised error. -/
theorem C4_counterexample :
    (create_group (fun _ => ApiRes.httpErr 409)).result = .error (true, 409)
    ∧ (create_group (fun _ => ApiRes.httpErr 409)).invocations = 5 := by
  decide

/-- C4 amended: only `add_member` absorbs a 409 conflict ("already a
member"), returning the `None` no-op marker without raising after a single
invocation; `create_group` has no conflict handling — an "already exists"
409 is retried like any HttpError and then propagates. -/
theorem C4_conflict_handling (attempts : Nat → ApiRes GroupRecord)
    (attempts2 : Nat → ApiRes PUnit) :
    ((∀ j, j < 5 → attempts j = .httpErr 409) →
      (create_group attempts).result = .error (true, 409)
      ∧ (create_group attempts).invocations = 5)
    ∧ (attempts2 0 = .httpErr 409 →
      (add_member attempts2).result = .ok none
      ∧ (add_member attempts2).invocations = 1) := by
  constructor
  · intro hfail
    have h := retryGo_allFail
      (fun k => match attempts k with
        | .ok v => OpRes.ok v
        | .httpErr s => OpRes.errMatch s)
      2 8 (fun _ => 409) 5 (by norm_num) 0 (1/2) []
      (fun j hj1 hj2 => by simp only [hfail j (by omega)])
    rw [create_group, retryDefault, retryRun, h]
    exact ⟨rfl, rfl⟩
  · intro h409
    rw [add_member, retryDefault, retryRun]
    have hstep : retryGo (fun k => add_member_body (attempts2 k)) 2 8 5 0 (1/2) []
        = ⟨.ok none, 1, []⟩ := by
      simp [retryGo, add_member_body, h409]
    rw [hstep]
    exact ⟨rfl, rfl⟩

/-- Witness for C4's amended statement with concrete always-409 remotes. -/
theorem C4_conflict_handling_witness :
    ((create_group (fun _ => ApiRes.httpErr 409)).invocations = 5)
    ∧ ((add_member (fun _ => (ApiRes.httpErr 409 : ApiRes PUnit))).result = .ok none) :=
  ⟨((C4_conflict_handling (fun _ => ApiRes.httpErr 409)
      (fun _ => ApiRes.httpErr 409)).1 (fun _ _ => rfl)).2,
   ((C4_conflict_handling (fun _ => ApiRes.httpErr 409)
      (fun _ => ApiRes.httpErr 409)).2 rfl).1⟩

/-- C5 counterexample: `to_group_email` strips the key before lower-casing,
so for a key containing `@` the result is not the lower-cased key; and in the
append branch the domain is lower-cased too, so the result is not
`lower(key) + "@" + domain` when the domain has upper-case letters. -/
theorem C5_counterexample :
    (pyContains " A@B.com " '@' = true
      ∧ to_group_email " A@B.com " "x.com" ≠ pyLower " A@B.com ")
    ∧ (pyContains "Abc" '@' = false
      ∧ to_group_email "Abc" "X.com" ≠ pyLower "Abc" ++ "@" ++ "X.com") := by
  decide

/-- C5 amended: the key is first trimmed; a trimmed key containing `@` maps
to its lower-casing, otherwise the result is
`lower(trimmed key) + "@" + lower(domain)`; the result is always lower-case
(a fixed point of lower-casing). -/
theorem C5_to_group_email (k d : String) :
    (pyContains (pyStrip k) '@' = true →
      to_group_email k d = pyLower (pyStrip k))
    ∧ (pyContains (pyStrip k) '@' = false →
      to_group_email k d = pyLower (pyStrip k) ++ "@" ++ pyLower d)
    ∧ pyLower (to_group_email k d) = to_group_email k d := by
  have hAt : pyLower "@" = "@" := by decide
  have h1 : pyContains (pyStrip k) '@' = true →
      to_group_email k d = pyLower (pyStrip k) := by
    intro h
    rw [to_group_email]
    simp [h]
  have h2 : pyContains (pyStrip k) '@' = false →
      to_group_email k d = pyLower (pyStrip k) ++ "@" ++ pyLower d := by
    intro h
    rw [to_group_email]
    simp only [h, Bool.false_eq_true, if_false]
    rw [pyLower_append, pyLower_append, pyLower_idem, hAt]
  refine ⟨h1, h2, ?_⟩
  cases hc : pyContains (pyStrip k) '@' with
  | true =>
    rw [h1 hc, pyLower_idem]
  | false =>
    rw [h2 hc, pyLower_append, pyLower_append, pyLower_idem, pyLower_idem, hAt]

/-- Witness for C5's amended statement at concrete keys, one per branch. -/
theorem C5_to_group_email_witness :
    to_group_email " A@B.com " "x.com" = pyLower (pyStrip " A@B.com ")
    ∧ to_group_email "Abc" "X.com" = pyLower (pyStrip "Abc") ++ "@" ++ pyLower "X.com" :=
  ⟨(C5_to_group_email " A@B.com " "x.com").1 (by decide),
   (C5_to_group_email "Abc" "X.com").2.1 (by decide)⟩

/-- C6: for a retry-wrapped operation, if every attempt fails with a matching
failure the operation is invoked exactly `tries` times, the `tries`-th
failure propagates unchanged, and the sleep before the k-th retry is
`min(base_delay * backoff^(k-1), max_delay)`; a first-attempt non-matching
failure propagates immediately after a single invocation with no sleep. -/
theorem C6_retry_contract {α : Type} (tries : Nat) (base backoff maxDelay : ℚ)
    (op : Nat → OpRes α) (f : Nat → Nat) (e : Nat) :
    (1 ≤ tries → (∀ j, j < tries → op j = .errMatch (f j)) →
      retryRun tries base backoff maxDelay op =
        ⟨.error (true, f (tries - 1)), tries,
          (List.range (tries - 1)).map (fun j => min (base * backoff ^ j) maxDelay)⟩)
    ∧ (op 0 = .errOther e →
      retryRun tries base backoff maxDelay op = ⟨.error (false, e), 1, []⟩) := by
  constructor
  · intro h1 hfail
    rw [retryRun, retryGo_allFail op backoff maxDelay f tries h1 0 base []
      (fun j hj1 hj2 => hfail j (by omega))]
    simp
  · intro h0
    rw [retryRun]
    cases tries with
    | zero => simp [retryGo, h0]
    | succ n => simp [retryGo, h0]

/-- Witness for C6 at `tries = 3`, `base_delay = 1/2`, `backoff = 2`,
`max_delay = 8`. -/
theorem C6_retry_contract_witness :
    retryRun 3 (1/2) 2 8 opW = ⟨.error (true, 2), 3, [1/2, 1]⟩
    ∧ retryRun 3 (1/2) 2 8 opW2 = ⟨.error (false, 7), 1, []⟩ := by
  constructor
  · have h := (C6_retry_contract 3 (1/2) 2 8 opW id 0).1 (by norm_num)
      (fun j _ => rfl)
    rw [h]
    simp only [RetryTrace.mk.injEq, id_eq, List.range_succ, List.range_zero,
      List.map_append, List.map_cons, List.map_nil, List.nil_append, min_def]
    norm_num
  · exact (C6_retry_contract 3 (1/2) 2 8 opW2 id 7).2 rfl

/-- C7: during the snapshot read, a 404 from a member-page call yields that
group with exactly the members accumulated so far (a normal value in the
returned snapshot), while any other member-listing failure for a registered
group makes the whole snapshot operation propagate an error. -/
theorem C7_snapshot_failure_policy (pfx : Option String)
    (gpages : List (List GroupObj)) (mb : String → MBehavior) (e : String)
    (hr : Registered pfx gpages e) :
    ((mb e).tail = .notFound →
      collectMembers (mb e) = .ok (unionPages (mb e).pages)
      ∧ ∀ snap, get_all_groups_with_members pfx gpages mb = .ok snap →
          lookupA snap e = some (unionPages (mb e).pages))
    ∧ (∀ c, collectMembers (mb e) = .error c →
        ∃ c', get_all_groups_with_members pfx gpages mb = .error c') := by
  constructor
  · intro htail
    have hcol := collectMembers_notFound (mb e) htail
    refine ⟨hcol, ?_⟩
    intro snap hok
    rw [get_all_groups_with_members, getAllPages_flatten] at hok
    obtain ⟨s, hcs, hl⟩ := processGroups_ok_reg mb pfx e gpages.flatten [] snap hok hr
    rw [hcol] at hcs
    injection hcs with h2
    rw [hl, h2]
  · intro c hc
    rw [get_all_groups_with_members, getAllPages_flatten]
    exact processGroups_err_reg mb pfx e c hc gpages.flatten [] hr

/-- Witness for C7: the 404 group appears in the snapshot with the members
accumulated before the 404, and a 500 member failure makes the whole
snapshot operation fail. -/
theorem C7_snapshot_failure_policy_witness :
    collectMembers (mbW "g@x.com") = .ok (unionPages (mbW "g@x.com").pages)
    ∧ lookupA [("g@x.com", {"a@x.com"}), ("h@x.com", {"b@x.com"})] "g@x.com"
        = some (unionPages (mbW "g@x.com").pages)
    ∧ ∃ c', get_all_groups_with_members none [[gW, gW2]] mbW2 = .error c' := by
  have h1 := (C7_snapshot_failure_policy none [[gW, gW2]] mbW "g@x.com"
    (by decide)).1 rfl
  have h2 := (C7_snapshot_failure_policy none [[gW, gW2]] mbW2 "g@x.com"
    (by decide)).2 500 (by decide)
  exact ⟨h1.1, h1.2 [("g@x.com", {"a@x.com"}), ("h@x.com", {"b@x.com"})] (by decide), h2⟩

/-- C8 counterexample: the synchronization entry point returns `None` for
every input, so its return value is identical for two runs with different
per-group outcomes (one creates a group and adds two members, the other is a
complete no-op): the return conveys no created/updated/unchanged status, no
member counts and no per-member errors. -/
theorem C8_counterexample :
    union_update_return allOk "x.com"
        [("AWS_Admins", ["Alice@X.com", "bob@x.com", "not-an-email"])] []
      = union_update_return allOk "x.com" [("eng@x.com", ["c@x.com"])]
          [("eng@x.com", {"a@x.com", "c@x.com"})]
    ∧ (runMerge allOk "x.com"
        [("AWS_Admins", ["Alice@X.com", "bob@x.com", "not-an-email"])] []).calls
      ≠ (runMerge allOk "x.com" [("eng@x.com", ["c@x.com"])]
          [("eng@x.com", {"a@x.com", "c@x.com"})]).calls :=
  ⟨rfl, by decide⟩

/-- C8 amended: `union_update_group_members` returns `None` on every input
(the same unit value regardless of what happened); per-group outcomes and
per-member errors are conveyed only through log records, not through a
returned SyncReport. -/
theorem C8_returns_none (gd : GD) (dom : String) (src : List (String × List String))
    (snap : List (String × Finset String)) :
    union_update_return gd dom src snap = PUnit.unit
    ∧ ∀ (gd2 : GD) (dom2 : String) (src2 : List (String × List String))
        (snap2 : List (String × Finset String)),
        union_update_return gd dom src snap = union_update_return gd2 dom2 src2 snap2 :=
  ⟨rfl, fun _ _ _ _ => rfl⟩

/-- C9: `add_members_bulk` attempts every member of the batch in order,
regardless of which individual `add_member` calls fail, never raises, and
logs exactly the failing members with their error codes. -/
theorem C9_bulk_partial_tolerance (res : String → Except Nat (Option PUnit))
    (members : List String) :
    (add_members_bulk res members).attempted = members
    ∧ (add_members_bulk res members).loggedErrors
      = members.filterMap (fun m =>
          match res m with
          | .ok _ => none
          | .error c => some (m, c)) := by
  induction members with
  | nil => exact ⟨rfl, rfl⟩
  | cons m rest ih =>
    obtain ⟨ih1, ih2⟩ := ih
    cases hm : res m with
    | ok v =>
      constructor
      · simp [add_members_bulk, hm, ih1]
      · simp [add_members_bulk, hm, ih2, List.filterMap_cons]
    | error c =>
      constructor
      · simp [add_members_bulk, hm, ih1]
      · simp [add_members_bulk, hm, ih2, List.filterMap_cons]

/-- C10: group objects lacking a (non-empty) email are silently omitted from
the snapshot — the result is identical to running on the pages with those
objects filtered out (no entry, no error) — and every key of a successful
snapshot comes from some group object carrying that non-empty email. -/
theorem C10_emailless_omitted (pfx : Option String) (gpages : List (List GroupObj))
    (mb : String → MBehavior) :
    get_all_groups_with_members pfx gpages mb
      = get_all_groups_with_members pfx (gpages.map (List.filter emailOk)) mb
    ∧ ∀ snap, get_all_groups_with_members pfx gpages mb = .ok snap →
        ∀ p ∈ snap, ∃ g ∈ gpages.flatten, g.email = some p.1 ∧ p.1 ≠ "" := by
  constructor
  · rw [get_all_groups_with_members, get_all_groups_with_members,
      getAllPages_flatten, getAllPages_flatten, flatten_map_filter]
    exact processGroups_filter_emailOk mb pfx gpages.flatten []
  · intro snap hok p hp
    rw [get_all_groups_with_members, getAllPages_flatten] at hok
    rcases processGroups_keys mb pfx gpages.flatten [] snap hok p hp with h | h
    · exact absurd h (List.not_mem_nil p)
    · exact h

/-- Witness for C10: a page containing an email-less group object yields a
snapshot whose only key is the group with an email, which the theorem traces
back to its group object. -/
theorem C10_emailless_omitted_witness :
    ∃ g ∈ [[gW, gNoEmail]].flatten, g.email = some "g@x.com" ∧ "g@x.com" ≠ "" :=
  (C10_emailless_omitted none [[gW, gNoEmail]] mbW).2
    [("g@x.com", {"a@x.com"})] (by decide) ("g@x.com", {"a@x.com"}) (by decide)
